import Mathlib

/-!
Verification of the Stone-Soup Rauch-Tung-Striebel (Kalman) smoother
(`stonesoup/smoother/kalman.py`) and of the forward-algorithm
classification example (`docs/examples/Naive_Classification.py`).

The numeric code is embedded shallowly over exact rational arithmetic:
state vectors are `Fin n → ℚ`, covariances are `Matrix (Fin n) (Fin n) ℚ`,
timestamps are integers (so time differences are signed integers), and each
Python exception that the smoother can raise is a constructor of an error
type threaded through `Except`.
-/

namespace StoneSoup

/-- Executable determinant over `ℚ` (Laplace expansion along the first
column).  `Matrix.det` itself is not kernel-reducible, so concrete runs of
the smoother use this function; `detQ_eq_det` below identifies the two. -/
def detQ : {m : ℕ} → Matrix (Fin m) (Fin m) ℚ → ℚ
  | 0, _ => 1
  | m + 1, A => ∑ i : Fin (m + 1), (-1) ^ (i : ℕ) * A i 0 * detQ (A.submatrix i.succAbove Fin.succ)

/-- Model of `numpy.linalg.inv`: it raises `LinAlgError` exactly on singular
matrices and otherwise returns the inverse (here through the adjugate
formula, with the cofactors computed by `detQ`).  `none` stands for the
raised error. -/
def matInv {m : ℕ} (A : Matrix (Fin m) (Fin m) ℚ) : Option (Matrix (Fin m) (Fin m) ℚ) :=
  if detQ A = 0 then none
  else some (Matrix.of fun i j => (detQ A)⁻¹ * detQ (A.updateRow j (Pi.single i 1)))

/-- A transition model, as consumed by the smoother: only its `matrix`
method is called.  `matrix Δt` is the state-transition matrix for the
(signed) elapsed time `Δt`. -/
structure TransitionModel (n : ℕ) where
  matrix : ℤ → Matrix (Fin n) (Fin n) ℚ

/-- `GaussianStatePrediction`: mean, covariance, timestamp, plus the
optional `transition_model` attribute a predictor may have attached
(`none` models the attribute being absent, the `hasattr` test in
`KalmanSmoother._transition_model` failing). -/
structure GaussianStatePrediction (n : ℕ) where
  state_vector : Fin n → ℚ
  covar : Matrix (Fin n) (Fin n) ℚ
  timestamp : ℤ
  transition_model : Option (TransitionModel n)

/-- A `Hypothesis` as read (never written) by the smoother: it exposes the
prediction that the update corrected. -/
structure Hypothesis (n : ℕ) where
  prediction : GaussianStatePrediction n

/-- `GaussianStateUpdate`: mean, covariance, timestamp and the mandatory
hypothesis back-reference. -/
structure GaussianStateUpdate (n : ℕ) where
  state_vector : Fin n → ℚ
  covar : Matrix (Fin n) (Fin n) ℚ
  timestamp : ℤ
  hypothesis : Hypothesis n

/-- A state of any other concrete type (neither a Gaussian prediction nor a
Gaussian update); on such states `KalmanSmoother._prediction` raises
`TypeError`. -/
structure OtherState (n : ℕ) where
  state_vector : Fin n → ℚ
  covar : Matrix (Fin n) (Fin n) ℚ
  timestamp : ℤ

/-- One element of a `Track`. -/
inductive TrackState (n : ℕ) where
  | prediction : GaussianStatePrediction n → TrackState n
  | update : GaussianStateUpdate n → TrackState n
  | other : OtherState n → TrackState n

/-- `state.state_vector` -/
def TrackState.state_vector {n : ℕ} : TrackState n → (Fin n → ℚ)
  | .prediction p => p.state_vector
  | .update u => u.state_vector
  | .other b => b.state_vector

/-- `state.covar` -/
def TrackState.covar {n : ℕ} : TrackState n → Matrix (Fin n) (Fin n) ℚ
  | .prediction p => p.covar
  | .update u => u.covar
  | .other b => b.covar

/-- `state.timestamp` -/
def TrackState.timestamp {n : ℕ} : TrackState n → ℤ
  | .prediction p => p.timestamp
  | .update u => u.timestamp
  | .other b => b.timestamp

/-- The Python exceptions the smoother's `smooth` can raise:
`TypeError` from `_prediction`, `AttributeError` from calling `.matrix` on
a `None` transition model, and `numpy.linalg.LinAlgError` from inverting a
singular covariance. -/
inductive SmootherError where
  | typeError : SmootherError
  | attributeError : SmootherError
  | linAlgError : SmootherError
deriving DecidableEq, Repr

/-- The `KalmanSmoother` configuration: its `transition_model` property
(`none` models an explicitly supplied `None`). -/
structure KalmanSmoother (n : ℕ) where
  transition_model : Option (TransitionModel n)

/-- `KalmanSmoother._prediction`: the prediction itself for a
`GaussianStatePrediction`, the hypothesis' prediction for a
`GaussianStateUpdate`, and `TypeError` otherwise. -/
def KalmanSmoother._prediction {n : ℕ} :
    TrackState n → Except SmootherError (GaussianStatePrediction n)
  | .prediction p => Except.ok p
  | .update u => Except.ok u.hypothesis.prediction
  | .other _ => Except.error SmootherError.typeError

/-- `KalmanSmoother._transition_model`: the transition model attached to
the prediction associated with `state` when that attribute exists,
otherwise the smoother's own `transition_model` property. -/
def KalmanSmoother._transition_model {n : ℕ} (s : KalmanSmoother n) (state : TrackState n) :
    Except SmootherError (Option (TransitionModel n)) := do
  let p ← KalmanSmoother._prediction state
  match p.transition_model with
  | some tm => pure (some tm)
  | none => pure s.transition_model

/-- The body of the backward loop of `KalmanSmoother.smooth` for a
non-first state (lines 94-114 of `kalman.py`): `state` is the current
(earlier) track element, `prev_state` the smoothed later state built by the
previous iteration, and `prediction` the prediction associated with the
original later state.  Returns the new value of `prev_state`. -/
def KalmanSmoother.smoothStep {n : ℕ} (s : KalmanSmoother n) (state prev_state : TrackState n)
    (prediction : GaussianStatePrediction n) : Except SmootherError (TrackState n) := do
  let time_interval := prev_state.timestamp - state.timestamp
  let tm ← KalmanSmoother._transition_model s state
  let transition_matrix ←
    match tm with
    | some m => pure (m.matrix time_interval)
    | none => Except.error SmootherError.attributeError
  let pinv ←
    match matInv prediction.covar with
    | some A => pure A
    | none => Except.error SmootherError.linAlgError
  let ksmooth_gain := state.covar * transition_matrix.transpose * pinv
  let smooth_mean := state.state_vector +
    ksmooth_gain.mulVec (prev_state.state_vector - prediction.state_vector)
  let smooth_covar := state.covar +
    ksmooth_gain * (prev_state.covar - prediction.covar) * ksmooth_gain.transpose
  match state with
  | .update u => pure (.update { u with
      state_vector := smooth_mean, covar := smooth_covar,
      timestamp := u.timestamp, hypothesis := u.hypothesis })
  | .prediction p => pure (.prediction { p with
      state_vector := smooth_mean, covar := smooth_covar, timestamp := p.timestamp })
  | .other _ => pure prev_state

/-- The backward loop of `KalmanSmoother.smooth` with its loop-carried
variables made explicit: the accumulated `smoothed_track`, `prev_state`,
and `prediction`.  Returns their final values. -/
def KalmanSmoother.smoothLoop {n : ℕ} (s : KalmanSmoother n) :
    List (TrackState n) → TrackState n → GaussianStatePrediction n → List (TrackState n) →
    Except SmootherError
      (List (TrackState n) × TrackState n × GaussianStatePrediction n)
  | [], prev_state, prediction, smoothed_track =>
      Except.ok (smoothed_track, prev_state, prediction)
  | state :: rest, prev_state, prediction, smoothed_track => do
      let y ← KalmanSmoother.smoothStep s state prev_state prediction
      let p ← KalmanSmoother._prediction state
      KalmanSmoother.smoothLoop s rest y p (smoothed_track ++ [y])

/-- `KalmanSmoother.smooth`: iterate over the reversed track; the first
(latest) state is appended unchanged, each later iteration runs
`smoothStep`; finally the accumulated track is reversed back to
chronological order. -/
def KalmanSmoother.smooth {n : ℕ} (s : KalmanSmoother n) (track : List (TrackState n)) :
    Except SmootherError (List (TrackState n)) :=
  match track.reverse with
  | [] => Except.ok []
  | state :: rest => do
      let p ← KalmanSmoother._prediction state
      let r ← KalmanSmoother.smoothLoop s rest state p [state]
      Except.ok r.1.reverse

/-- `KalmanSmoother.track_smooth`: its body is `pass`, so it returns `None`
(modelled as `none`) for every argument. -/
def KalmanSmoother.track_smooth {n : ℕ} (_s : KalmanSmoother n) {α : Type} (_args : α) :
    Option (List (TrackState n)) :=
  none

/-- `ExtendedKalmanSmoother` re-declares the `transition_model` property
with a wider Python type annotation and adds nothing else. -/
structure ExtendedKalmanSmoother (n : ℕ) where
  transition_model : Option (TransitionModel n)

/-- The `KalmanSmoother` an `ExtendedKalmanSmoother` is, by inheritance. -/
def ExtendedKalmanSmoother.toKalmanSmoother {n : ℕ} (e : ExtendedKalmanSmoother n) :
    KalmanSmoother n :=
  { transition_model := e.transition_model }

/-- `ExtendedKalmanSmoother.smooth` is inherited from `KalmanSmoother`
unchanged. -/
def ExtendedKalmanSmoother.smooth {n : ℕ} (e : ExtendedKalmanSmoother n)
    (track : List (TrackState n)) : Except SmootherError (List (TrackState n)) :=
  KalmanSmoother.smooth e.toKalmanSmoother track

/-- `ExtendedKalmanSmoother.track_smooth` is inherited from
`KalmanSmoother` unchanged. -/
def ExtendedKalmanSmoother.track_smooth {n : ℕ} (e : ExtendedKalmanSmoother n) {α : Type}
    (args : α) : Option (List (TrackState n)) :=
  KalmanSmoother.track_smooth e.toKalmanSmoother args

/-- "Same state, except for the mean and the covariance": the second state
has the same concrete kind as the first, the same timestamp, and every
field other than `state_vector` and `covar` equal (the same hypothesis for
an update, the same attached transition model for a prediction). -/
def matchesButMoments {n : ℕ} : TrackState n → TrackState n → Prop
  | .prediction p, .prediction q =>
      q.timestamp = p.timestamp ∧ q.transition_model = p.transition_model
  | .update u, .update v => v.timestamp = u.timestamp ∧ v.hypothesis = u.hypothesis
  | _, _ => False

end StoneSoup

namespace NaiveClassification

/-- The transition matrix `F` of `docs/examples/Naive_Classification.py`. -/
def F : Matrix (Fin 3) (Fin 3) ℚ :=
  !![8/10, 1/10, 1/10;
     1/10, 8/10, 1/10;
     0,    1/10, 9/10]

/-- The emission matrix `E` of `docs/examples/Naive_Classification.py`. -/
def E : Matrix (Fin 3) (Fin 3) ℚ :=
  !![89/100, 1/10,  1/100;
     3/10,   3/10,  4/10;
     1/10,   3/10,  6/10]

/-- `transit(state)`: `F.T @ state.state_vector`. -/
def transit (x : Fin 3 → ℚ) : Fin 3 → ℚ :=
  F.transpose.mulVec x

/-- An observation's state vector: a one-hot vector, as produced by
drawing once from a multinomial distribution. -/
def oneHot (j : Fin 3) : Fin 3 → ℚ :=
  fun i => if i = j then 1 else 0

/-- One iteration of the tracking loop of
`docs/examples/Naive_Classification.py`: transition the prior, weight the
observation by the emission matrix, multiply elementwise and normalise by
the sum. -/
def forwardStep (prior z : Fin 3 → ℚ) : Fin 3 → ℚ :=
  let TX := transit prior
  let EY := E.mulVec z
  let prenormalise := TX * EY
  fun i => prenormalise i / (∑ j, prenormalise j)

/-- The tracking loop: given the current prior and the remaining
observations (each a category index, standing for the sampled one-hot
observation vector), the list of states appended to the track, in order. -/
def forwardTrack (prior : Fin 3 → ℚ) : List (Fin 3) → List (Fin 3 → ℚ)
  | [] => []
  | o :: os =>
      let x := forwardStep prior (oneHot o)
      x :: forwardTrack x os

/-- The uniform prior `StateVector([1/3, 1/3, 1/3])`. -/
def uniformPrior : Fin 3 → ℚ := fun _ => 1/3

end NaiveClassification

namespace StoneSoup

/-- The 1x1 rational matrix with the given entry (used for concrete runs
of the smoother on one-dimensional tracks). -/
def mat1 (q : ℚ) : Matrix (Fin 1) (Fin 1) ℚ := Matrix.of fun _ _ => q

/-- A one-dimensional state vector. -/
def vec1 (q : ℚ) : Fin 1 → ℚ := fun _ => q

/-- A transition model whose matrix is constant in the time interval. -/
def cmodel (q : ℚ) : TransitionModel 1 := ⟨fun _ => mat1 q⟩

/-- A smoother configured with `transition_model=None`. -/
def sNoDefault : KalmanSmoother 1 := ⟨none⟩

/-- The model attached to the earlier state's prediction in the two-state
track below. -/
def modelA : TransitionModel 1 := cmodel 2

/-- The (different) model attached to the later state's prediction in the
two-state track below. -/
def modelB : TransitionModel 1 := cmodel 3

/-- Earlier state: a prediction with mean 1, covariance 1, time 0, and
`modelA` attached. -/
def pA : GaussianStatePrediction 1 := ⟨vec1 1, mat1 1, 0, some modelA⟩

/-- The prediction behind the later update: mean 5, covariance 1, time 1,
`modelB` attached. -/
def qB : GaussianStatePrediction 1 := ⟨vec1 5, mat1 1, 1, some modelB⟩

/-- Later state: an update with mean 4, covariance 2, time 1, whose
hypothesis references `qB`. -/
def uB : GaussianStateUpdate 1 := ⟨vec1 4, mat1 2, 1, ⟨qB⟩⟩

/-- A two-state track: earlier prediction `pA`, later update `uB`. -/
def trackAB : List (TrackState 1) := [.prediction pA, .update uB]

/-- The smoothed track the code produces on `trackAB` (gain 2, computed
with `modelA`, the model of the earlier state's prediction). -/
def outAB : List (TrackState 1) := [.prediction ⟨vec1 (-1), mat1 5, 0, some modelA⟩, .update uB]

/-- A later prediction carrying no attached transition model. -/
def pLaterNoModel : GaussianStatePrediction 1 := ⟨vec1 7, mat1 1, 1, none⟩

/-- A track whose later (latest) state has no resolvable transition
model, while the earlier state has one attached. -/
def trackLatestNoModel : List (TrackState 1) := [.prediction pA, .prediction pLaterNoModel]

/-- An earlier prediction carrying no attached transition model. -/
def pEarlierNoModel : GaussianStatePrediction 1 := ⟨vec1 1, mat1 1, 0, none⟩

/-- A track whose earlier (non-latest) state has no resolvable transition
model. -/
def trackEarlierNoModel : List (TrackState 1) :=
  [.prediction pEarlierNoModel, .prediction pLaterNoModel]

/-- A prediction with an exactly singular covariance. -/
def pSingular : GaussianStatePrediction 1 := ⟨vec1 7, mat1 0, 1, none⟩

theorem detQ_eq_det : ∀ {m : ℕ} (A : Matrix (Fin m) (Fin m) ℚ), detQ A = A.det
  | 0, A => by simp [detQ, Matrix.det_fin_zero]
  | m + 1, A => by
    rw [detQ, Matrix.det_succ_column_zero]
    exact Finset.sum_congr rfl fun i _ => by rw [detQ_eq_det]

theorem matInv_eq_inv {m : ℕ} (A B : Matrix (Fin m) (Fin m) ℚ) (h : matInv A = some B) :
    B = A.det⁻¹ • A.adjugate := by
  unfold matInv at h
  split at h
  · exact absurd h (by simp)
  · rw [← Option.some_inj, ← h]
    refine congrArg some (Matrix.ext fun i j => ?_)
    simp [detQ_eq_det, Matrix.adjugate_apply, Matrix.smul_apply, smul_eq_mul]

/-- `matInv` really inverts: a successful inversion is a right inverse. -/
theorem matInv_mul {m : ℕ} (A B : Matrix (Fin m) (Fin m) ℚ) (h : matInv A = some B) :
    A * B = 1 := by
  have hd : detQ A ≠ 0 := by
    intro h0
    simp [matInv, h0] at h
  rw [matInv_eq_inv A B h, Matrix.mul_smul, Matrix.mul_adjugate, smul_smul,
    inv_mul_cancel₀ (by rwa [detQ_eq_det] at hd), one_smul]

/-- `matInv` fails exactly on singular matrices. -/
theorem matInv_eq_none_iff {m : ℕ} (A : Matrix (Fin m) (Fin m) ℚ) :
    matInv A = none ↔ A.det = 0 := by
  rw [← detQ_eq_det]
  unfold matInv
  split <;> simp_all

@[simp]
theorem exceptBind_ok {α β ε : Type} (a : α) (f : α → Except ε β) :
    (Except.ok a : Except ε α) >>= f = f a := rfl

@[simp]
theorem exceptBind_error {α β ε : Type} (e : ε) (f : α → Except ε β) :
    (Except.error e : Except ε α) >>= f = Except.error e := rfl

@[simp]
theorem exceptPure {α ε : Type} (a : α) : (pure a : Except ε α) = Except.ok a := rfl

end StoneSoup

namespace StoneSoup

theorem smoothLoop_append {n : ℕ} (s : KalmanSmoother n) (l₁ l₂ : List (TrackState n))
    (prev : TrackState n) (pred : GaussianStatePrediction n) (acc : List (TrackState n)) :
    KalmanSmoother.smoothLoop s (l₁ ++ l₂) prev pred acc =
      KalmanSmoother.smoothLoop s l₁ prev pred acc >>= fun r =>
        KalmanSmoother.smoothLoop s l₂ r.2.1 r.2.2 r.1 := by
  induction l₁ generalizing prev pred acc with
  | nil => simp [KalmanSmoother.smoothLoop]
  | cons st rest ih =>
    simp only [List.cons_append, KalmanSmoother.smoothLoop]
    cases h1 : KalmanSmoother.smoothStep s st prev pred with
    | error e => simp [h1]
    | ok y =>
      cases h2 : KalmanSmoother._prediction st with
      | error e => simp [h1, h2]
      | ok p => simp [h1, h2, ih]

theorem smoothStep_pred_ok {n : ℕ} {s : KalmanSmoother n} {st prev : TrackState n}
    {pred : GaussianStatePrediction n} {y : TrackState n}
    (h : KalmanSmoother.smoothStep s st prev pred = Except.ok y) :
    ∃ p, KalmanSmoother._prediction st = Except.ok p := by
  cases hp : KalmanSmoother._prediction st with
  | ok p => exact ⟨p, rfl⟩
  | error e =>
    unfold KalmanSmoother.smoothStep KalmanSmoother._transition_model at h
    simp [hp] at h

theorem smoothStep_ok_parts {n : ℕ} {s : KalmanSmoother n} {st prev : TrackState n}
    {pred : GaussianStatePrediction n} {y : TrackState n}
    (h : KalmanSmoother.smoothStep s st prev pred = Except.ok y) :
    ∃ m ci, KalmanSmoother._transition_model s st = Except.ok (some m) ∧
      matInv pred.covar = some ci := by
  unfold KalmanSmoother.smoothStep at h
  cases htm : KalmanSmoother._transition_model s st with
  | error e => simp [htm] at h
  | ok tmOpt =>
    cases tmOpt with
    | none => simp [htm] at h
    | some m =>
      cases hci : matInv pred.covar with
      | none => simp [htm, hci] at h
      | some ci => exact ⟨m, ci, rfl, rfl⟩

theorem smoothLoop_ok_getLast {n : ℕ} {s : KalmanSmoother n} :
    ∀ {l : List (TrackState n)} {prev : TrackState n} {pred : GaussianStatePrediction n}
      {acc a₁ : List (TrackState n)} {p₁ : TrackState n} {q₁ : GaussianStatePrediction n},
      acc.getLast? = some prev →
      KalmanSmoother.smoothLoop s l prev pred acc = Except.ok (a₁, p₁, q₁) →
      a₁.getLast? = some p₁ := by
  intro l
  induction l with
  | nil =>
    intro prev pred acc a₁ p₁ q₁ hacc h
    unfold KalmanSmoother.smoothLoop at h
    simp only [Except.ok.injEq, Prod.mk.injEq] at h
    obtain ⟨h1, h2, h3⟩ := h
    rw [← h1, ← h2]
    exact hacc
  | cons st rest ih =>
    intro prev pred acc a₁ p₁ q₁ hacc h
    unfold KalmanSmoother.smoothLoop at h
    cases h1 : KalmanSmoother.smoothStep s st prev pred with
    | error e => simp [h1] at h
    | ok y =>
      cases h2 : KalmanSmoother._prediction st with
      | error e => simp [h1, h2] at h
      | ok p =>
        simp only [h1, h2, exceptBind_ok] at h
        exact ih (by simp) h

theorem smoothLoop_ok_predFinal {n : ℕ} {s : KalmanSmoother n} :
    ∀ {l : List (TrackState n)} {prev : TrackState n} {pred : GaussianStatePrediction n}
      {acc a₁ : List (TrackState n)} {p₁ : TrackState n} {q₁ : GaussianStatePrediction n},
      KalmanSmoother.smoothLoop s l prev pred acc = Except.ok (a₁, p₁, q₁) →
      (l = [] ∧ a₁ = acc ∧ p₁ = prev ∧ q₁ = pred) ∨
      (∃ lst, l.getLast? = some lst ∧ KalmanSmoother._prediction lst = Except.ok q₁) := by
  intro l
  induction l with
  | nil =>
    intro prev pred acc a₁ p₁ q₁ h
    unfold KalmanSmoother.smoothLoop at h
    simp only [Except.ok.injEq, Prod.mk.injEq] at h
    exact Or.inl ⟨rfl, h.1.symm, h.2.1.symm, h.2.2.symm⟩
  | cons st rest ih =>
    intro prev pred acc a₁ p₁ q₁ h
    unfold KalmanSmoother.smoothLoop at h
    cases h1 : KalmanSmoother.smoothStep s st prev pred with
    | error e => simp [h1] at h
    | ok y =>
      cases h2 : KalmanSmoother._prediction st with
      | error e => simp [h1, h2] at h
      | ok p =>
        simp only [h1, h2, exceptBind_ok] at h
        rcases ih h with ⟨hnil, _, _, hq⟩ | ⟨lst, hlst, hplst⟩
        · subst hnil
          exact Or.inr ⟨st, rfl, by rw [h2, hq]⟩
        · refine Or.inr ⟨lst, ?_, hplst⟩
          cases rest with
          | nil => simp at hlst
          | cons r rs => rw [List.getLast?_cons_cons]; exact hlst

theorem smoothLoop_ok_shape {n : ℕ} {s : KalmanSmoother n} :
    ∀ {l : List (TrackState n)} {prev : TrackState n} {pred : GaussianStatePrediction n}
      {acc a₁ : List (TrackState n)} {p₁ : TrackState n} {q₁ : GaussianStatePrediction n},
      KalmanSmoother.smoothLoop s l prev pred acc = Except.ok (a₁, p₁, q₁) →
      ∃ P, a₁ = acc ++ P ∧ P.length = l.length := by
  intro l
  induction l with
  | nil =>
    intro prev pred acc a₁ p₁ q₁ h
    unfold KalmanSmoother.smoothLoop at h
    simp only [Except.ok.injEq, Prod.mk.injEq] at h
    exact ⟨[], by simp [h.1.symm], rfl⟩
  | cons st rest ih =>
    intro prev pred acc a₁ p₁ q₁ h
    unfold KalmanSmoother.smoothLoop at h
    cases h1 : KalmanSmoother.smoothStep s st prev pred with
    | error e => simp [h1] at h
    | ok y =>
      cases h2 : KalmanSmoother._prediction st with
      | error e => simp [h1, h2] at h
      | ok p =>
        simp only [h1, h2, exceptBind_ok] at h
        obtain ⟨P, hP, hlen⟩ := ih h
        exact ⟨y :: P, by simp [hP], by simp [hlen]⟩

end StoneSoup

namespace StoneSoup

theorem smooth_nil {n : ℕ} (s : KalmanSmoother n) :
    KalmanSmoother.smooth s [] = Except.ok [] := rfl

theorem smooth_singleton_ok {n : ℕ} (s : KalmanSmoother n) (x : TrackState n)
    (p : GaussianStatePrediction n) (h : KalmanSmoother._prediction x = Except.ok p) :
    KalmanSmoother.smooth s [x] = Except.ok [x] := by
  unfold KalmanSmoother.smooth
  simp [h, KalmanSmoother.smoothLoop]

theorem smooth_singleton_iff {n : ℕ} (s : KalmanSmoother n) (x : TrackState n)
    (out : List (TrackState n)) :
    KalmanSmoother.smooth s [x] = Except.ok out ↔
      (∃ p, KalmanSmoother._prediction x = Except.ok p) ∧ out = [x] := by
  constructor
  · intro h
    unfold KalmanSmoother.smooth at h
    cases hp : KalmanSmoother._prediction x with
    | error e => simp [hp] at h
    | ok p =>
      simp only [List.reverse_cons, List.reverse_nil, List.nil_append, hp, exceptBind_ok,
        KalmanSmoother.smoothLoop, Except.ok.injEq] at h
      exact ⟨⟨p, rfl⟩, by simp [← h]⟩
  · rintro ⟨⟨p, hp⟩, rfl⟩
    exact smooth_singleton_ok s x p hp

theorem smooth_cons_cons_ok {n : ℕ} (s : KalmanSmoother n) (a b : TrackState n)
    (u : List (TrackState n)) (out : List (TrackState n)) :
    KalmanSmoother.smooth s (a :: b :: u) = Except.ok out ↔
      ∃ sb tail pb y,
        KalmanSmoother.smooth s (b :: u) = Except.ok (sb :: tail) ∧
        KalmanSmoother._prediction b = Except.ok pb ∧
        KalmanSmoother.smoothStep s a sb pb = Except.ok y ∧
        out = y :: sb :: tail := by
  obtain ⟨z, w, hrev⟩ : ∃ z w, (b :: u).reverse = z :: w := by
    cases hr : (b :: u).reverse with
    | nil => exact absurd hr (by simp)
    | cons z w => exact ⟨z, w, rfl⟩
  have hwnil : w = [] → b = z ∧ u = [] := by
    intro hw
    rw [hw] at hrev
    have : b :: u = [z] := by
      have := congrArg List.reverse hrev
      simpa using this
    simp only [List.cons.injEq] at this
    exact this
  have hwlast : w ≠ [] → w.getLast? = some b := by
    intro hw
    have h1 : (b :: u).reverse.getLast? = some b := by
      rw [List.getLast?_reverse]
      rfl
    rw [hrev] at h1
    cases w with
    | nil => exact absurd rfl hw
    | cons r rs => rw [List.getLast?_cons_cons] at h1; exact h1
  have hsmu : KalmanSmoother.smooth s (b :: u) =
      (KalmanSmoother._prediction z >>= fun p =>
        KalmanSmoother.smoothLoop s w z p [z] >>= fun r =>
          Except.ok r.1.reverse) := by
    unfold KalmanSmoother.smooth
    rw [hrev]
  have hsma : KalmanSmoother.smooth s (a :: b :: u) =
      (KalmanSmoother._prediction z >>= fun p =>
        KalmanSmoother.smoothLoop s (w ++ [a]) z p [z] >>= fun r =>
          Except.ok r.1.reverse) := by
    unfold KalmanSmoother.smooth
    rw [List.reverse_cons, hrev, List.cons_append]
  constructor
  · intro h
    rw [hsma] at h
    cases hp : KalmanSmoother._prediction z with
    | error e => simp [hp] at h
    | ok p =>
      simp only [hp, exceptBind_ok] at h
      rw [smoothLoop_append] at h
      cases hr1 : KalmanSmoother.smoothLoop s w z p [z] with
      | error e => simp [hr1] at h
      | ok r₁ =>
        obtain ⟨a₁, p₁, q₁⟩ := r₁
        simp only [hr1, exceptBind_ok] at h
        unfold KalmanSmoother.smoothLoop at h
        cases hy : KalmanSmoother.smoothStep s a p₁ q₁ with
        | error e => simp [hy] at h
        | ok y =>
          cases hpa : KalmanSmoother._prediction a with
          | error e => simp [hy, hpa] at h
          | ok pa =>
            simp only [hy, hpa, exceptBind_ok] at h
            unfold KalmanSmoother.smoothLoop at h
            simp only [exceptBind_ok, Except.ok.injEq] at h
            have hlast : a₁.getLast? = some p₁ :=
              smoothLoop_ok_getLast (by rfl) hr1
            have hpb : KalmanSmoother._prediction b = Except.ok q₁ := by
              rcases smoothLoop_ok_predFinal hr1 with ⟨hw, _, hpz, hq⟩ | ⟨lst, hlst, hplst⟩
              · obtain ⟨hbz, _⟩ := hwnil hw
                rw [hbz, hp, hq]
              · have hwne : w ≠ [] := by
                  intro hw
                  rw [hw] at hlst
                  simp at hlst
                have := hwlast hwne
                rw [this] at hlst
                obtain rfl : lst = b := by
                  simpa using hlst.symm
                exact hplst
            have hhead : a₁.reverse.head? = some p₁ := by
              rw [List.head?_reverse]
              exact hlast
            cases hrevA : a₁.reverse with
            | nil => rw [hrevA] at hhead; simp at hhead
            | cons x xs =>
              rw [hrevA] at hhead
              simp only [List.head?_cons, Option.some.injEq] at hhead
              refine ⟨p₁, xs, q₁, y, ?_, hpb, hy, ?_⟩
              · rw [hsmu]
                simp [hp, hr1, hrevA, hhead]
              · rw [← h]
                simp [hrevA, hhead]
  · rintro ⟨sb, tail, pb, y, h1, h2, h3, rfl⟩
    rw [hsmu] at h1
    cases hp : KalmanSmoother._prediction z with
    | error e => simp [hp] at h1
    | ok p =>
      simp only [hp, exceptBind_ok] at h1
      cases hr1 : KalmanSmoother.smoothLoop s w z p [z] with
      | error e => simp [hr1] at h1
      | ok r₁ =>
        obtain ⟨a₁, p₁, q₁⟩ := r₁
        simp only [hr1, exceptBind_ok, Except.ok.injEq] at h1
        have hlast : a₁.getLast? = some p₁ :=
          smoothLoop_ok_getLast (by rfl) hr1
        have hsb : sb = p₁ := by
          have hhead : a₁.reverse.head? = some p₁ := by
            rw [List.head?_reverse]; exact hlast
          rw [h1] at hhead
          simpa using hhead
        have hqb : q₁ = pb := by
          have hpb' : KalmanSmoother._prediction b = Except.ok q₁ := by
            rcases smoothLoop_ok_predFinal hr1 with ⟨hw, _, hpz, hq⟩ | ⟨lst, hlst, hplst⟩
            · obtain ⟨hbz, _⟩ := hwnil hw
              rw [hbz, hp, hq]
            · have hwne : w ≠ [] := by
                intro hw
                rw [hw] at hlst
                simp at hlst
              have := hwlast hwne
              rw [this] at hlst
              obtain rfl : lst = b := by
                simpa using hlst.symm
              exact hplst
          rw [hpb'] at h2
          simpa using h2
        have h3' : KalmanSmoother.smoothStep s a p₁ q₁ = Except.ok y := by
          rw [← hsb, hqb]; exact h3
        obtain ⟨pa, hpa⟩ := smoothStep_pred_ok h3'
        rw [hsma]
        simp only [hp, exceptBind_ok]
        rw [smoothLoop_append, hr1]
        simp only [exceptBind_ok]
        unfold KalmanSmoother.smoothLoop
        simp [h3', hpa, KalmanSmoother.smoothLoop, h1]

end StoneSoup

namespace StoneSoup

theorem smooth_ok_length {n : ℕ} {s : KalmanSmoother n} :
    ∀ {t out : List (TrackState n)}, KalmanSmoother.smooth s t = Except.ok out →
      out.length = t.length := by
  intro t
  induction t with
  | nil =>
    intro out h
    rw [smooth_nil] at h
    simp only [Except.ok.injEq] at h
    rw [← h]
  | cons a u ih =>
    cases u with
    | nil =>
      intro out h
      rw [smooth_singleton_iff] at h
      rw [h.2]
    | cons b u2 =>
      intro out h
      rw [smooth_cons_cons_ok] at h
      obtain ⟨sb, tail, pb, y, h1, h2, h3, rfl⟩ := h
      have := ih h1
      simp only [List.length_cons] at this ⊢
      omega

theorem smooth_ok_getLast {n : ℕ} {s : KalmanSmoother n} :
    ∀ {t out : List (TrackState n)}, KalmanSmoother.smooth s t = Except.ok out →
      out.getLast? = t.getLast? := by
  intro t
  induction t with
  | nil =>
    intro out h
    rw [smooth_nil] at h
    simp only [Except.ok.injEq] at h
    rw [← h]
  | cons a u ih =>
    cases u with
    | nil =>
      intro out h
      rw [smooth_singleton_iff] at h
      rw [h.2]
    | cons b u2 =>
      intro out h
      rw [smooth_cons_cons_ok] at h
      obtain ⟨sb, tail, pb, y, h1, h2, h3, rfl⟩ := h
      rw [List.getLast?_cons_cons, List.getLast?_cons_cons, ← ih h1]

theorem smooth_ok_lastState {n : ℕ} {s : KalmanSmoother n} :
    ∀ {t out : List (TrackState n)}, KalmanSmoother.smooth s t = Except.ok out →
      ∀ lst, t.getLast? = some lst → ∃ p, KalmanSmoother._prediction lst = Except.ok p := by
  intro t
  induction t with
  | nil =>
    intro out _ lst hlst
    simp at hlst
  | cons a u ih =>
    cases u with
    | nil =>
      intro out h lst hlst
      rw [smooth_singleton_iff] at h
      obtain ⟨⟨p, hp⟩, _⟩ := h
      obtain rfl : lst = a := by simpa using hlst.symm
      exact ⟨p, hp⟩
    | cons b u2 =>
      intro out h lst hlst
      rw [smooth_cons_cons_ok] at h
      obtain ⟨sb, tail, pb, y, h1, _, _, _⟩ := h
      rw [List.getLast?_cons_cons] at hlst
      exact ih h1 lst hlst

theorem smooth_ok_get {n : ℕ} {s : KalmanSmoother n} :
    ∀ {t out : List (TrackState n)}, KalmanSmoother.smooth s t = Except.ok out →
      ∀ k (hk1 : k + 1 < t.length) (hk1' : k + 1 < out.length)
        (hk0 : k < t.length) (hk0' : k < out.length),
        ∃ pb, KalmanSmoother._prediction (t.get ⟨k + 1, hk1⟩) = Except.ok pb ∧
          KalmanSmoother.smoothStep s (t.get ⟨k, hk0⟩) (out.get ⟨k + 1, hk1'⟩) pb =
            Except.ok (out.get ⟨k, hk0'⟩) := by
  intro t
  induction t with
  | nil =>
    intro out h k hk1
    simp at hk1
  | cons a u ih =>
    cases u with
    | nil =>
      intro out h k hk1
      simp at hk1
    | cons b u2 =>
      intro out h k hk1 hk1' hk0 hk0'
      rw [smooth_cons_cons_ok] at h
      obtain ⟨sb, tail, pb, y, h1, h2, h3, rfl⟩ := h
      cases k with
      | zero => exact ⟨pb, h2, h3⟩
      | succ j =>
        have hlen := smooth_ok_length h1
        have hj1 : j + 1 < (b :: u2).length := by
          simp only [List.length_cons] at hk1 ⊢
          omega
        have hj1' : j + 1 < (sb :: tail).length := by
          simp only [List.length_cons] at hk1' ⊢
          omega
        have hj0 : j < (b :: u2).length := by omega
        have hj0' : j < (sb :: tail).length := by omega
        obtain ⟨pb2, hpb2, hstep⟩ := ih h1 j hj1 hj1' hj0 hj0'
        exact ⟨pb2, hpb2, hstep⟩

end StoneSoup

namespace StoneSoup

theorem smoothStep_prediction_eq {n : ℕ} (s : KalmanSmoother n)
    (p : GaussianStatePrediction n) (prev : TrackState n)
    (pred : GaussianStatePrediction n) (m : TransitionModel n)
    (ci : Matrix (Fin n) (Fin n) ℚ)
    (hm : KalmanSmoother._transition_model s (.prediction p) = Except.ok (some m))
    (hci : matInv pred.covar = some ci) :
    KalmanSmoother.smoothStep s (.prediction p) prev pred =
      Except.ok (.prediction { p with
        state_vector := p.state_vector +
          (p.covar * (m.matrix (prev.timestamp - p.timestamp)).transpose * ci).mulVec
            (prev.state_vector - pred.state_vector),
        covar := p.covar +
          (p.covar * (m.matrix (prev.timestamp - p.timestamp)).transpose * ci) *
            (prev.covar - pred.covar) *
            (p.covar * (m.matrix (prev.timestamp - p.timestamp)).transpose * ci).transpose }) := by
  unfold KalmanSmoother.smoothStep
  rw [hm]
  simp [hci, TrackState.state_vector, TrackState.covar, TrackState.timestamp]

theorem smoothStep_update_eq {n : ℕ} (s : KalmanSmoother n)
    (u : GaussianStateUpdate n) (prev : TrackState n)
    (pred : GaussianStatePrediction n) (m : TransitionModel n)
    (ci : Matrix (Fin n) (Fin n) ℚ)
    (hm : KalmanSmoother._transition_model s (.update u) = Except.ok (some m))
    (hci : matInv pred.covar = some ci) :
    KalmanSmoother.smoothStep s (.update u) prev pred =
      Except.ok (.update { u with
        state_vector := u.state_vector +
          (u.covar * (m.matrix (prev.timestamp - u.timestamp)).transpose * ci).mulVec
            (prev.state_vector - pred.state_vector),
        covar := u.covar +
          (u.covar * (m.matrix (prev.timestamp - u.timestamp)).transpose * ci) *
            (prev.covar - pred.covar) *
            (u.covar * (m.matrix (prev.timestamp - u.timestamp)).transpose * ci).transpose }) := by
  unfold KalmanSmoother.smoothStep
  rw [hm]
  simp [hci, TrackState.state_vector, TrackState.covar, TrackState.timestamp]

theorem smoothStep_ok_notOther {n : ℕ} {s : KalmanSmoother n} {st prev : TrackState n}
    {pred : GaussianStatePrediction n} {y : TrackState n}
    (h : KalmanSmoother.smoothStep s st prev pred = Except.ok y) :
    (∃ p, st = TrackState.prediction p) ∨ (∃ u, st = TrackState.update u) := by
  obtain ⟨p, hp⟩ := smoothStep_pred_ok h
  cases st with
  | prediction q => exact Or.inl ⟨q, rfl⟩
  | update u => exact Or.inr ⟨u, rfl⟩
  | other b => exact absurd hp (by unfold KalmanSmoother._prediction; simp)

theorem smoothStep_ok_shape {n : ℕ} {s : KalmanSmoother n} {st prev : TrackState n}
    {pred : GaussianStatePrediction n} {y : TrackState n}
    (h : KalmanSmoother.smoothStep s st prev pred = Except.ok y) :
    matchesButMoments st y := by
  obtain ⟨m, ci, hm, hci⟩ := smoothStep_ok_parts h
  rcases smoothStep_ok_notOther h with ⟨p, rfl⟩ | ⟨u, rfl⟩
  · rw [smoothStep_prediction_eq s p prev pred m ci hm hci] at h
    simp only [Except.ok.injEq] at h
    rw [← h]
    exact ⟨rfl, rfl⟩
  · rw [smoothStep_update_eq s u prev pred m ci hm hci] at h
    simp only [Except.ok.injEq] at h
    rw [← h]
    exact ⟨rfl, rfl⟩

theorem matchesButMoments_timestamp {n : ℕ} {st y : TrackState n}
    (h : matchesButMoments st y) : y.timestamp = st.timestamp := by
  cases st with
  | prediction p =>
    cases y with
    | prediction q => exact h.1
    | update v => exact h.elim
    | other b => exact h.elim
  | update u =>
    cases y with
    | prediction q => exact h.elim
    | update v => exact h.1
    | other b => exact h.elim
  | other b =>
    cases y <;> exact h.elim

theorem matchesButMoments_self {n : ℕ} {st : TrackState n}
    {p : GaussianStatePrediction n} (h : KalmanSmoother._prediction st = Except.ok p) :
    matchesButMoments st st := by
  cases st with
  | prediction q => exact ⟨rfl, rfl⟩
  | update u => exact ⟨rfl, rfl⟩
  | other b => exact absurd h (by unfold KalmanSmoother._prediction; simp)

end StoneSoup

namespace NaiveClassification

theorem E_entry_pos : ∀ i j : Fin 3, 0 < E i j := by
  intro i j
  fin_cases i <;> fin_cases j <;> norm_num [E]

theorem F_entry_nonneg : ∀ i j : Fin 3, 0 ≤ F i j := by
  intro i j
  fin_cases i <;> fin_cases j <;> norm_num [F]

theorem F_rowSum : ∀ j : Fin 3, ∑ i : Fin 3, F j i = 1 := by
  intro j
  fin_cases j <;> norm_num [F, Fin.sum_univ_three]

theorem mulVec_oneHot (j i : Fin 3) : Matrix.mulVec E (oneHot j) i = E i j := by
  simp only [Matrix.mulVec, Matrix.dotProduct, oneHot, mul_ite, mul_one, mul_zero]
  rw [Finset.sum_ite_eq' Finset.univ j (fun k => E i k)]
  simp

theorem transit_nonneg {x : Fin 3 → ℚ} (hx : ∀ i, 0 ≤ x i) : ∀ i, 0 ≤ transit x i := by
  intro i
  simp only [transit, Matrix.mulVec, Matrix.dotProduct, Matrix.transpose_apply]
  exact Finset.sum_nonneg fun j _ => mul_nonneg (F_entry_nonneg j i) (hx j)

theorem transit_sum (x : Fin 3 → ℚ) : ∑ i, transit x i = ∑ j, x j := by
  simp only [transit, Matrix.mulVec, Matrix.dotProduct, Matrix.transpose_apply]
  rw [Finset.sum_comm]
  refine Finset.sum_congr rfl fun j _ => ?_
  rw [← Finset.sum_mul, F_rowSum j, one_mul]

theorem forwardStep_invariant {x : Fin 3 → ℚ} (j : Fin 3)
    (hx : ∀ i, 0 ≤ x i) (hs : ∑ i, x i = 1) :
    (∀ i, 0 ≤ forwardStep x (oneHot j) i) ∧ ∑ i, forwardStep x (oneHot j) i = 1 := by
  have hpre_nonneg : ∀ i, 0 ≤ transit x i * Matrix.mulVec E (oneHot j) i := fun i =>
    mul_nonneg (transit_nonneg hx i)
      (le_of_lt (by rw [mulVec_oneHot]; exact E_entry_pos i j))
  have hex : ∃ i : Fin 3, 0 < transit x i := by
    by_contra hc
    push_neg at hc
    have hle : ∑ i, transit x i ≤ 0 := Finset.sum_nonpos fun i _ => hc i
    rw [transit_sum, hs] at hle
    norm_num at hle
  have hS : 0 < ∑ i, transit x i * Matrix.mulVec E (oneHot j) i := by
    obtain ⟨i0, hi0⟩ := hex
    refine Finset.sum_pos' (fun i _ => hpre_nonneg i) ⟨i0, Finset.mem_univ i0, ?_⟩
    exact mul_pos hi0 (by rw [mulVec_oneHot]; exact E_entry_pos i0 j)
  constructor
  · intro i
    simp only [forwardStep, Pi.mul_apply]
    exact div_nonneg (hpre_nonneg i) (le_of_lt hS)
  · simp only [forwardStep, Pi.mul_apply]
    rw [← Finset.sum_div]
    exact div_self (ne_of_gt hS)

theorem forwardTrack_invariant : ∀ (os : List (Fin 3)) (prior : Fin 3 → ℚ),
    (∀ i, 0 ≤ prior i) → (∑ i, prior i = 1) →
    ∀ x ∈ forwardTrack prior os, (∀ i, 0 ≤ x i) ∧ ∑ i, x i = 1 := by
  intro os
  induction os with
  | nil =>
    intro prior _ _ x hx
    simp [forwardTrack] at hx
  | cons o rest ih =>
    intro prior hp hs x hx
    simp only [forwardTrack, List.mem_cons] at hx
    obtain ⟨h1, h2⟩ := forwardStep_invariant o hp hs
    rcases hx with rfl | hx
    · exact ⟨h1, h2⟩
    · exact ih _ h1 h2 x hx

end NaiveClassification

namespace StoneSoup

theorem smooth_ok_matches {n : ℕ} {s : KalmanSmoother n} {t out : List (TrackState n)}
    (h : KalmanSmoother.smooth s t = Except.ok out) :
    ∀ k (hk : k < t.length) (hk' : k < out.length),
      matchesButMoments (t.get ⟨k, hk⟩) (out.get ⟨k, hk'⟩) := by
  intro k hk hk'
  have hlen := smooth_ok_length h
  rcases Nat.lt_or_ge (k + 1) t.length with hlt | hge
  · obtain ⟨pb, hpb, hstep⟩ := smooth_ok_get h k hlt (by omega) hk hk'
    exact smoothStep_ok_shape hstep
  · have hk1 : k = t.length - 1 := by omega
    subst hk1
    have htne : t ≠ [] := by
      intro h0
      rw [h0] at hk
      simp at hk
    have houtne : out ≠ [] := by
      intro h0
      rw [h0] at hk'
      simp at hk'
    have e1 : (⟨t.length - 1, hk'⟩ : Fin out.length) = ⟨out.length - 1, by omega⟩ :=
      Fin.ext (by simp [hlen])
    have hgt : t.get ⟨t.length - 1, hk⟩ = t.getLast htne := List.get_length_sub_one hk
    have hgo : out.get ⟨t.length - 1, hk'⟩ = out.getLast houtne := by
      rw [e1]
      exact List.get_length_sub_one _
    have hlasts : out.getLast houtne = t.getLast htne := by
      have h1 := List.getLast?_eq_getLast_of_ne_nil houtne
      have h2 := List.getLast?_eq_getLast_of_ne_nil htne
      have h3 := smooth_ok_getLast h
      rw [h1, h2] at h3
      simpa using h3
    obtain ⟨p, hp⟩ := smooth_ok_lastState h (t.getLast htne)
      (List.getLast?_eq_getLast_of_ne_nil htne)
    rw [hgt, hgo, hlasts]
    exact matchesButMoments_self hp

theorem smooth_ok_timestamp {n : ℕ} {s : KalmanSmoother n} {t out : List (TrackState n)}
    (h : KalmanSmoother.smooth s t = Except.ok out) :
    ∀ k (hk : k < t.length) (hk' : k < out.length),
      (out.get ⟨k, hk'⟩).timestamp = (t.get ⟨k, hk⟩).timestamp :=
  fun k hk hk' => matchesButMoments_timestamp (smooth_ok_matches h k hk hk')

end StoneSoup

namespace StoneSoup

theorem detQ_fin_one (A : Matrix (Fin 1) (Fin 1) ℚ) : detQ A = A 0 0 := by
  simp [detQ]

theorem matInv_fin_one (A : Matrix (Fin 1) (Fin 1) ℚ) (h : A 0 0 ≠ 0) :
    matInv A = some (mat1 (A 0 0)⁻¹) := by
  unfold matInv
  rw [if_neg (by rw [detQ_fin_one]; exact h)]
  refine congrArg some (Matrix.ext fun i j => ?_)
  have hi : i = 0 := Subsingleton.elim i 0
  have hj : j = 0 := Subsingleton.elim j 0
  subst hi
  subst hj
  rw [Matrix.of_apply, detQ_fin_one, detQ_fin_one]
  simp [mat1, Matrix.updateRow_apply, Pi.single_eq_same]

theorem matInv_fin_one_none (A : Matrix (Fin 1) (Fin 1) ℚ) (h : A 0 0 = 0) :
    matInv A = none := by
  unfold matInv
  rw [if_pos (by rw [detQ_fin_one]; exact h)]

theorem matInv_mat1_one : matInv (mat1 1) = some (mat1 1) := by
  rw [matInv_fin_one (mat1 1) (by norm_num [mat1])]
  norm_num [mat1]

theorem matInv_mat1_zero : matInv (mat1 0) = none :=
  matInv_fin_one_none (mat1 0) rfl

end StoneSoup

namespace StoneSoup

theorem smooth_trackAB : KalmanSmoother.smooth sNoDefault trackAB = Except.ok outAB := by
  have h1 : KalmanSmoother.smooth sNoDefault [TrackState.update uB] =
      Except.ok [TrackState.update uB] :=
    smooth_singleton_ok _ _ qB rfl
  have hm : KalmanSmoother._transition_model sNoDefault (TrackState.prediction pA) =
      Except.ok (some modelA) := rfl
  have hci : matInv qB.covar = some (mat1 1) := matInv_mat1_one
  have hstep := smoothStep_prediction_eq sNoDefault pA (TrackState.update uB) qB modelA
    (mat1 1) hm hci
  have hsv : pA.state_vector +
      (pA.covar * (modelA.matrix ((TrackState.update uB).timestamp - pA.timestamp)).transpose *
        mat1 1).mulVec ((TrackState.update uB).state_vector - qB.state_vector) = vec1 (-1) := by
    funext i
    simp [pA, qB, uB, modelA, cmodel, mat1, vec1, TrackState.state_vector,
      TrackState.timestamp, Matrix.mulVec, Matrix.dotProduct, Matrix.mul_apply,
      Matrix.transpose_apply, Fin.sum_univ_one]
    norm_num
  have hcv : pA.covar +
      (pA.covar * (modelA.matrix ((TrackState.update uB).timestamp - pA.timestamp)).transpose *
        mat1 1) * ((TrackState.update uB).covar - qB.covar) *
        (pA.covar * (modelA.matrix ((TrackState.update uB).timestamp - pA.timestamp)).transpose *
          mat1 1).transpose = mat1 5 := by
    refine Matrix.ext fun i j => ?_
    simp [pA, qB, uB, modelA, cmodel, mat1, TrackState.covar,
      TrackState.timestamp, Matrix.mul_apply, Matrix.transpose_apply, Fin.sum_univ_one]
    norm_num
  refine (smooth_cons_cons_ok sNoDefault _ _ [] outAB).mpr
    ⟨TrackState.update uB, [], qB,
      TrackState.prediction ⟨vec1 (-1), mat1 5, 0, some modelA⟩, h1, rfl, ?_, rfl⟩
  rw [hstep, hsv, hcv]
  rfl

end StoneSoup

namespace StoneSoup

theorem smooth_ok_formula {n : ℕ} {s : KalmanSmoother n} {t out : List (TrackState n)}
    (h : KalmanSmoother.smooth s t = Except.ok out) (k : ℕ)
    (hk1 : k + 1 < t.length) (hk1' : k + 1 < out.length)
    (hk0 : k < t.length) (hk0' : k < out.length)
    {pb : GaussianStatePrediction n}
    (hpb : KalmanSmoother._prediction (t.get ⟨k + 1, hk1⟩) = Except.ok pb)
    {m : TransitionModel n}
    (hm : KalmanSmoother._transition_model s (t.get ⟨k, hk0⟩) = Except.ok (some m))
    {ci : Matrix (Fin n) (Fin n) ℚ} (hci : matInv pb.covar = some ci) :
    (out.get ⟨k, hk0'⟩).state_vector =
      (t.get ⟨k, hk0⟩).state_vector +
        ((t.get ⟨k, hk0⟩).covar *
          (m.matrix ((t.get ⟨k + 1, hk1⟩).timestamp -
            (t.get ⟨k, hk0⟩).timestamp)).transpose * ci).mulVec
          ((out.get ⟨k + 1, hk1'⟩).state_vector - pb.state_vector) ∧
    (out.get ⟨k, hk0'⟩).covar =
      (t.get ⟨k, hk0⟩).covar +
        ((t.get ⟨k, hk0⟩).covar *
          (m.matrix ((t.get ⟨k + 1, hk1⟩).timestamp -
            (t.get ⟨k, hk0⟩).timestamp)).transpose * ci) *
          ((out.get ⟨k + 1, hk1'⟩).covar - pb.covar) *
          ((t.get ⟨k, hk0⟩).covar *
            (m.matrix ((t.get ⟨k + 1, hk1⟩).timestamp -
              (t.get ⟨k, hk0⟩).timestamp)).transpose * ci).transpose := by
  obtain ⟨pb', hpb', hstep⟩ := smooth_ok_get h k hk1 hk1' hk0 hk0'
  have hpbe : pb' = pb := by
    have := hpb'.symm.trans hpb
    simpa using this
  rw [hpbe] at hstep
  have hts : (out.get ⟨k + 1, hk1'⟩).timestamp = (t.get ⟨k + 1, hk1⟩).timestamp :=
    smooth_ok_timestamp h (k + 1) hk1 hk1'
  rcases smoothStep_ok_notOther hstep with ⟨p, hp⟩ | ⟨u, hu⟩
  · rw [hp] at hstep hm
    rw [smoothStep_prediction_eq s p (out.get ⟨k + 1, hk1'⟩) pb m ci hm hci] at hstep
    simp only [Except.ok.injEq] at hstep
    rw [← hstep, hp, hts]
    exact ⟨rfl, rfl⟩
  · rw [hu] at hstep hm
    rw [smoothStep_update_eq s u (out.get ⟨k + 1, hk1'⟩) pb m ci hm hci] at hstep
    simp only [Except.ok.injEq] at hstep
    rw [← hstep, hu, hts]
    exact ⟨rfl, rfl⟩

end StoneSoup

namespace StoneSoup

theorem smooth_trackLatestNoModel :
    KalmanSmoother.smooth sNoDefault trackLatestNoModel = Except.ok trackLatestNoModel := by
  have h1 : KalmanSmoother.smooth sNoDefault [TrackState.prediction pLaterNoModel] =
      Except.ok [TrackState.prediction pLaterNoModel] :=
    smooth_singleton_ok _ _ pLaterNoModel rfl
  have hm : KalmanSmoother._transition_model sNoDefault (TrackState.prediction pA) =
      Except.ok (some modelA) := rfl
  have hci : matInv pLaterNoModel.covar = some (mat1 1) := matInv_mat1_one
  have hstep := smoothStep_prediction_eq sNoDefault pA (TrackState.prediction pLaterNoModel)
    pLaterNoModel modelA (mat1 1) hm hci
  have hsv : pA.state_vector +
      (pA.covar * (modelA.matrix ((TrackState.prediction pLaterNoModel).timestamp -
        pA.timestamp)).transpose * mat1 1).mulVec
        ((TrackState.prediction pLaterNoModel).state_vector -
          pLaterNoModel.state_vector) = vec1 1 := by
    funext i
    simp [pA, pLaterNoModel, modelA, cmodel, mat1, vec1, TrackState.state_vector,
      TrackState.timestamp, Matrix.mulVec, Matrix.dotProduct, Matrix.mul_apply,
      Matrix.transpose_apply, Fin.sum_univ_one]
  have hcv : pA.covar +
      (pA.covar * (modelA.matrix ((TrackState.prediction pLaterNoModel).timestamp -
        pA.timestamp)).transpose * mat1 1) *
        ((TrackState.prediction pLaterNoModel).covar - pLaterNoModel.covar) *
        (pA.covar * (modelA.matrix ((TrackState.prediction pLaterNoModel).timestamp -
          pA.timestamp)).transpose * mat1 1).transpose = mat1 1 := by
    refine Matrix.ext fun i j => ?_
    simp [pA, pLaterNoModel, modelA, cmodel, mat1, TrackState.covar,
      TrackState.timestamp, Matrix.mul_apply, Matrix.transpose_apply, Fin.sum_univ_one]
  refine (smooth_cons_cons_ok sNoDefault _ _ [] trackLatestNoModel).mpr
    ⟨TrackState.prediction pLaterNoModel, [], pLaterNoModel,
      TrackState.prediction ⟨vec1 1, mat1 1, 0, some modelA⟩, h1, rfl, ?_, rfl⟩
  rw [hstep, hsv, hcv]
  rfl

/-- C1: whenever `smooth` succeeds on a track, every non-latest output
state `k` is built from the original state `Sₖ`, the already-smoothed
later state (`out` at `k+1`) and the prediction `P_{k+1}` associated with
the original later state, through the Rauch-Tung-Striebel gain
`G = Σₖ · T(Δt)ᵗ · (Σ_{k+1|k})⁻¹` with `Δt` the timestamp difference of
the original states: the smoothed mean is `μₖ + G (μ'_{k+1} − μ_{k+1|k})`
and the smoothed covariance `Σₖ + G (Σ'_{k+1} − Σ_{k+1|k}) Gᵗ`.  The
matrix `ci` fed to the gain really is the inverse of `P_{k+1}`'s
covariance. -/
theorem smooth_rts_formula {n : ℕ} (s : KalmanSmoother n) (t out : List (TrackState n))
    (h : KalmanSmoother.smooth s t = Except.ok out) (k : ℕ)
    (hk1 : k + 1 < t.length) (hk1' : k + 1 < out.length)
    (hk0 : k < t.length) (hk0' : k < out.length)
    (pb : GaussianStatePrediction n)
    (hpb : KalmanSmoother._prediction (t.get ⟨k + 1, hk1⟩) = Except.ok pb)
    (m : TransitionModel n)
    (hm : KalmanSmoother._transition_model s (t.get ⟨k, hk0⟩) = Except.ok (some m))
    (ci : Matrix (Fin n) (Fin n) ℚ) (hci : matInv pb.covar = some ci) :
    pb.covar * ci = 1 ∧
    (out.get ⟨k, hk0'⟩).state_vector =
      (t.get ⟨k, hk0⟩).state_vector +
        ((t.get ⟨k, hk0⟩).covar *
          (m.matrix ((t.get ⟨k + 1, hk1⟩).timestamp -
            (t.get ⟨k, hk0⟩).timestamp)).transpose * ci).mulVec
          ((out.get ⟨k + 1, hk1'⟩).state_vector - pb.state_vector) ∧
    (out.get ⟨k, hk0'⟩).covar =
      (t.get ⟨k, hk0⟩).covar +
        ((t.get ⟨k, hk0⟩).covar *
          (m.matrix ((t.get ⟨k + 1, hk1⟩).timestamp -
            (t.get ⟨k, hk0⟩).timestamp)).transpose * ci) *
          ((out.get ⟨k + 1, hk1'⟩).covar - pb.covar) *
          ((t.get ⟨k, hk0⟩).covar *
            (m.matrix ((t.get ⟨k + 1, hk1⟩).timestamp -
              (t.get ⟨k, hk0⟩).timestamp)).transpose * ci).transpose :=
  ⟨matInv_mul pb.covar ci hci,
    smooth_ok_formula h k hk1 hk1' hk0 hk0' hpb hm hci⟩

theorem smooth_rts_formula_witness :
    KalmanSmoother.smooth sNoDefault trackAB = Except.ok outAB ∧
    (qB.covar * mat1 1 = 1 ∧
      (vec1 (-1) : Fin 1 → ℚ) =
        pA.state_vector +
          ((pA.covar * (modelA.matrix ((1 : ℤ) - 0)).transpose * mat1 1).mulVec
            (uB.state_vector - qB.state_vector)) ∧
      (mat1 5 : Matrix (Fin 1) (Fin 1) ℚ) =
        pA.covar +
          ((pA.covar * (modelA.matrix ((1 : ℤ) - 0)).transpose * mat1 1) *
            (uB.covar - qB.covar) *
            (pA.covar * (modelA.matrix ((1 : ℤ) - 0)).transpose * mat1 1).transpose)) :=
  ⟨smooth_trackAB,
    smooth_rts_formula sNoDefault trackAB outAB smooth_trackAB 0
      (by norm_num [trackAB]) (by norm_num [outAB])
      (by norm_num [trackAB]) (by norm_num [outAB])
      qB rfl modelA rfl (mat1 1) matInv_mat1_one⟩

end StoneSoup

namespace StoneSoup

/-- C2 counterexample: in the two-state track `trackAB` the later state's
associated prediction `qB` carries `modelB`, so the claim prescribes the
gain be computed from `modelB`; the code instead resolves the model from
the earlier state (`modelA` attached to `pA`), and the smoothed mean it
actually produces, `-1`, differs from the mean `-2` prescribed by the
claim's resolution rule. -/
theorem smooth_model_from_later_cex :
    KalmanSmoother.smooth sNoDefault trackAB = Except.ok outAB ∧
    KalmanSmoother._prediction (TrackState.update uB) = Except.ok qB ∧
    qB.transition_model = some modelB ∧
    matInv qB.covar = some (mat1 1) ∧
    (outAB.get ⟨0, by norm_num [outAB]⟩).state_vector = vec1 (-1) ∧
    pA.state_vector +
        ((pA.covar * (modelB.matrix ((TrackState.update uB).timestamp -
          (TrackState.prediction pA).timestamp)).transpose * mat1 1).mulVec
          ((TrackState.update uB).state_vector - qB.state_vector)) = vec1 (-2) ∧
    (vec1 (-1) : Fin 1 → ℚ) ≠ vec1 (-2) := by
  refine ⟨smooth_trackAB, rfl, rfl, matInv_mat1_one, rfl, ?_, ?_⟩
  · funext i
    simp [pA, qB, uB, modelB, cmodel, mat1, vec1, TrackState.state_vector,
      TrackState.timestamp, Matrix.mulVec, Matrix.dotProduct, Matrix.mul_apply,
      Matrix.transpose_apply, Fin.sum_univ_one]
    norm_num
  · intro heq
    have h0 := congrFun heq 0
    norm_num [vec1] at h0

/-- C2 amended: at each backward step the transition model whose matrix is
used is the one attached to the prediction associated with the *earlier*
state `Sₖ` when present, and otherwise the smoother's configured default
`transition_model`; with the model so resolved, the smoothed moments
follow the Rauch-Tung-Striebel formulas. -/
theorem smooth_model_from_earlier {n : ℕ} (s : KalmanSmoother n)
    (t out : List (TrackState n))
    (h : KalmanSmoother.smooth s t = Except.ok out) (k : ℕ)
    (hk1 : k + 1 < t.length) (hk1' : k + 1 < out.length)
    (hk0 : k < t.length) (hk0' : k < out.length)
    (pk : GaussianStatePrediction n)
    (hpk : KalmanSmoother._prediction (t.get ⟨k, hk0⟩) = Except.ok pk)
    (m : TransitionModel n)
    (hres : pk.transition_model = some m ∨
      (pk.transition_model = none ∧ s.transition_model = some m))
    (pb : GaussianStatePrediction n)
    (hpb : KalmanSmoother._prediction (t.get ⟨k + 1, hk1⟩) = Except.ok pb)
    (ci : Matrix (Fin n) (Fin n) ℚ) (hci : matInv pb.covar = some ci) :
    (out.get ⟨k, hk0'⟩).state_vector =
      (t.get ⟨k, hk0⟩).state_vector +
        ((t.get ⟨k, hk0⟩).covar *
          (m.matrix ((t.get ⟨k + 1, hk1⟩).timestamp -
            (t.get ⟨k, hk0⟩).timestamp)).transpose * ci).mulVec
          ((out.get ⟨k + 1, hk1'⟩).state_vector - pb.state_vector) ∧
    (out.get ⟨k, hk0'⟩).covar =
      (t.get ⟨k, hk0⟩).covar +
        ((t.get ⟨k, hk0⟩).covar *
          (m.matrix ((t.get ⟨k + 1, hk1⟩).timestamp -
            (t.get ⟨k, hk0⟩).timestamp)).transpose * ci) *
          ((out.get ⟨k + 1, hk1'⟩).covar - pb.covar) *
          ((t.get ⟨k, hk0⟩).covar *
            (m.matrix ((t.get ⟨k + 1, hk1⟩).timestamp -
              (t.get ⟨k, hk0⟩).timestamp)).transpose * ci).transpose := by
  have hm : KalmanSmoother._transition_model s (t.get ⟨k, hk0⟩) = Except.ok (some m) := by
    unfold KalmanSmoother._transition_model
    rw [hpk]
    rcases hres with h1 | ⟨h1, h2⟩
    · simp [h1]
    · simp [h1, h2]
  exact smooth_ok_formula h k hk1 hk1' hk0 hk0' hpb hm hci

theorem smooth_model_from_earlier_witness :
    KalmanSmoother.smooth sNoDefault trackAB = Except.ok outAB ∧
    pA.transition_model = some modelA ∧
    ((vec1 (-1) : Fin 1 → ℚ) =
        pA.state_vector +
          ((pA.covar * (modelA.matrix ((1 : ℤ) - 0)).transpose * mat1 1).mulVec
            (uB.state_vector - qB.state_vector)) ∧
      (mat1 5 : Matrix (Fin 1) (Fin 1) ℚ) =
        pA.covar +
          ((pA.covar * (modelA.matrix ((1 : ℤ) - 0)).transpose * mat1 1) *
            (uB.covar - qB.covar) *
            (pA.covar * (modelA.matrix ((1 : ℤ) - 0)).transpose * mat1 1).transpose)) :=
  ⟨smooth_trackAB, rfl,
    smooth_model_from_earlier sNoDefault trackAB outAB smooth_trackAB 0
      (by norm_num [trackAB]) (by norm_num [outAB])
      (by norm_num [trackAB]) (by norm_num [outAB])
      pA rfl modelA (Or.inl rfl) qB rfl (mat1 1) matInv_mat1_one⟩

end StoneSoup

namespace StoneSoup

/-- C3 counterexample: in `trackLatestNoModel` the later state
`pLaterNoModel` has no attached transition model and the smoother has no
default (`sNoDefault`), so a state of the track has no resolvable
transition model; yet `smooth` does not fail with a configuration error —
it returns a smoothed track. -/
theorem smooth_config_failfast_cex :
    KalmanSmoother._transition_model sNoDefault (TrackState.prediction pLaterNoModel) =
      Except.ok none ∧
    sNoDefault.transition_model = none ∧
    KalmanSmoother.smooth sNoDefault trackLatestNoModel = Except.ok trackLatestNoModel :=
  ⟨rfl, rfl, smooth_trackLatestNoModel⟩

/-- C3 amended: if some *non-latest* state of the track has no resolvable
transition model (none attached to its associated prediction, none
configured on the smoother), then `smooth` never returns a track — the
`AttributeError` is raised when that state is reached during the backward
pass (or an error raised by an earlier-processed step preempts it), so no
partially-smoothed track is ever returned. -/
theorem smooth_unresolvable_model_errors {n : ℕ} (s : KalmanSmoother n)
    (t : List (TrackState n)) (k : ℕ) (hk1 : k + 1 < t.length) (hk0 : k < t.length)
    (hm : KalmanSmoother._transition_model s (t.get ⟨k, hk0⟩) = Except.ok none) :
    ∀ out, KalmanSmoother.smooth s t ≠ Except.ok out := by
  intro out h
  have hlen := smooth_ok_length h
  obtain ⟨pb, hpb, hstep⟩ := smooth_ok_get h k hk1 (by omega) hk0 (by omega)
  obtain ⟨m, ci, hm', hci⟩ := smoothStep_ok_parts hstep
  rw [hm] at hm'
  simp at hm'

theorem smooth_unresolvable_model_errors_witness :
    KalmanSmoother._transition_model sNoDefault
        (trackEarlierNoModel.get ⟨0, by norm_num [trackEarlierNoModel]⟩) = Except.ok none ∧
    ∀ out, KalmanSmoother.smooth sNoDefault trackEarlierNoModel ≠ Except.ok out :=
  ⟨rfl,
    smooth_unresolvable_model_errors sNoDefault trackEarlierNoModel 0
      (by norm_num [trackEarlierNoModel]) (by norm_num [trackEarlierNoModel]) rfl⟩

/-- C4: when `smooth` succeeds, the returned track has the same length as
the input, and the state at each position has the same timestamp and the
same concrete kind as the corresponding input state, with every field
other than the mean and the covariance unchanged (an update keeps its
hypothesis, a prediction keeps its attached transition model). -/
theorem smooth_preserves_shape {n : ℕ} (s : KalmanSmoother n)
    (t out : List (TrackState n)) (h : KalmanSmoother.smooth s t = Except.ok out) :
    out.length = t.length ∧
    ∀ k (hk : k < t.length) (hk' : k < out.length),
      (out.get ⟨k, hk'⟩).timestamp = (t.get ⟨k, hk⟩).timestamp ∧
      matchesButMoments (t.get ⟨k, hk⟩) (out.get ⟨k, hk'⟩) :=
  ⟨smooth_ok_length h, fun k hk hk' =>
    ⟨smooth_ok_timestamp h k hk hk', smooth_ok_matches h k hk hk'⟩⟩

theorem smooth_preserves_shape_witness :
    KalmanSmoother.smooth sNoDefault trackAB = Except.ok outAB ∧
    (outAB.length = trackAB.length ∧
      ∀ k (hk : k < trackAB.length) (hk' : k < outAB.length),
        (outAB.get ⟨k, hk'⟩).timestamp = (trackAB.get ⟨k, hk⟩).timestamp ∧
        matchesButMoments (trackAB.get ⟨k, hk⟩) (outAB.get ⟨k, hk'⟩)) :=
  ⟨smooth_trackAB, smooth_preserves_shape sNoDefault trackAB outAB smooth_trackAB⟩

/-- C5: a single-state track is returned unchanged (provided its state is
a Gaussian prediction or update), and on any successful run the latest
(last) element of the output is the latest element of the input,
unchanged. -/
theorem smooth_latest_unchanged {n : ℕ} (s : KalmanSmoother n) (x : TrackState n)
    (px : GaussianStatePrediction n) (hx : KalmanSmoother._prediction x = Except.ok px)
    (t out : List (TrackState n)) (h : KalmanSmoother.smooth s t = Except.ok out) :
    KalmanSmoother.smooth s [x] = Except.ok [x] ∧ out.getLast? = t.getLast? :=
  ⟨smooth_singleton_ok s x px hx, smooth_ok_getLast h⟩

theorem smooth_latest_unchanged_witness :
    KalmanSmoother._prediction (TrackState.prediction pA) = Except.ok pA ∧
    KalmanSmoother.smooth sNoDefault trackAB = Except.ok outAB ∧
    (KalmanSmoother.smooth sNoDefault [TrackState.prediction pA] =
        Except.ok [TrackState.prediction pA] ∧
      outAB.getLast? = trackAB.getLast?) :=
  ⟨rfl, smooth_trackAB,
    smooth_latest_unchanged sNoDefault (TrackState.prediction pA) pA rfl
      trackAB outAB smooth_trackAB⟩

end StoneSoup

namespace StoneSoup

/-- C6: (i) on any successful run, every non-latest element required the
(successful) inversion of the covariance of the prediction associated with
its later neighbour — success implies each of those matrices was
invertible; (ii) when that covariance is singular, the backward step
raises the distinct numerical error `LinAlgError` instead of returning a
result; (iii) the latest element alone triggers no inversion: a singleton
track smooths successfully regardless of its covariance. -/
theorem smooth_inversion_behavior {n : ℕ} (s : KalmanSmoother n)
    (t out : List (TrackState n)) (h : KalmanSmoother.smooth s t = Except.ok out)
    (s2 : KalmanSmoother n) (a b : TrackState n)
    (pb : GaussianStatePrediction n) (hb : KalmanSmoother._prediction b = Except.ok pb)
    (m : TransitionModel n)
    (ha : KalmanSmoother._transition_model s2 a = Except.ok (some m)) :
    (∀ k (hk1 : k + 1 < t.length),
      ∃ p ci, KalmanSmoother._prediction (t.get ⟨k + 1, hk1⟩) = Except.ok p ∧
        matInv p.covar = some ci) ∧
    (matInv pb.covar = none →
      KalmanSmoother.smooth s2 [a, b] = Except.error SmootherError.linAlgError) ∧
    KalmanSmoother.smooth s2 [b] = Except.ok [b] := by
  refine ⟨?_, ?_, smooth_singleton_ok s2 b pb hb⟩
  · intro k hk1
    have hlen := smooth_ok_length h
    obtain ⟨p, hp, hstep⟩ := smooth_ok_get h k hk1 (by omega) (by omega) (by omega)
    obtain ⟨m', ci, hm', hci⟩ := smoothStep_ok_parts hstep
    exact ⟨p, ci, hp, hci⟩
  · intro hnone
    have hrev : ([a, b] : List (TrackState n)).reverse = [b, a] := by simp
    have hsm : KalmanSmoother.smooth s2 [a, b] =
        (KalmanSmoother._prediction b >>= fun p =>
          KalmanSmoother.smoothLoop s2 [a] b p [b] >>= fun r =>
            Except.ok r.1.reverse) := by
      unfold KalmanSmoother.smooth
      rw [hrev]
    have hstep : KalmanSmoother.smoothStep s2 a b pb =
        Except.error SmootherError.linAlgError := by
      unfold KalmanSmoother.smoothStep
      rw [ha]
      simp [hnone]
    rw [hsm, hb]
    simp only [exceptBind_ok]
    unfold KalmanSmoother.smoothLoop
    simp [hstep]

theorem smooth_inversion_behavior_witness :
    KalmanSmoother.smooth sNoDefault [TrackState.prediction pA] =
        Except.ok [TrackState.prediction pA] ∧
    KalmanSmoother._prediction (TrackState.prediction pSingular) = Except.ok pSingular ∧
    KalmanSmoother._transition_model sNoDefault (TrackState.prediction pA) =
        Except.ok (some modelA) ∧
    matInv pSingular.covar = none ∧
    ((∀ k (hk1 : k + 1 < ([TrackState.prediction pA] : List (TrackState 1)).length),
        ∃ p ci, KalmanSmoother._prediction
            (([TrackState.prediction pA] : List (TrackState 1)).get ⟨k + 1, hk1⟩) =
            Except.ok p ∧ matInv p.covar = some ci) ∧
      (matInv pSingular.covar = none →
        KalmanSmoother.smooth sNoDefault
            [TrackState.prediction pA, TrackState.prediction pSingular] =
          Except.error SmootherError.linAlgError) ∧
      KalmanSmoother.smooth sNoDefault [TrackState.prediction pSingular] =
        Except.ok [TrackState.prediction pSingular]) :=
  ⟨rfl, rfl, rfl, matInv_mat1_zero,
    smooth_inversion_behavior sNoDefault [TrackState.prediction pA]
      [TrackState.prediction pA] rfl sNoDefault
      (TrackState.prediction pA) (TrackState.prediction pSingular) pSingular rfl
      modelA rfl⟩

/-- C7: `ExtendedKalmanSmoother` re-declares only the type annotation of
`transition_model` and inherits both `smooth` and `track_smooth`
unchanged: for every configured model and every track, its methods return
exactly what a `KalmanSmoother` with the same `transition_model` returns.
The recursion is parametric in the resolved `TransitionModel` (an
arbitrary `matrix` function), so it cannot branch on the model's concrete
type. -/
theorem extended_smooth_eq_kalman {n : ℕ} (e : ExtendedKalmanSmoother n)
    (track : List (TrackState n)) {α : Type} (args : α) :
    ExtendedKalmanSmoother.smooth e track =
      KalmanSmoother.smooth ⟨e.transition_model⟩ track ∧
    ExtendedKalmanSmoother.track_smooth e args =
      KalmanSmoother.track_smooth (⟨e.transition_model⟩ : KalmanSmoother n) args :=
  ⟨rfl, rfl⟩

/-- C9: `track_smooth` of both smoother classes performs no computation
and returns `None` for every argument. -/
theorem track_smooth_returns_none {n : ℕ} (s : KalmanSmoother n)
    (e : ExtendedKalmanSmoother n) {α : Type} (args : α) :
    KalmanSmoother.track_smooth s args = none ∧
    ExtendedKalmanSmoother.track_smooth e args = none :=
  ⟨rfl, rfl⟩

end StoneSoup

namespace NaiveClassification

/-- C10: every state the tracking loop of the classification example
appends to the track is a categorical distribution: starting from the
uniform prior, for any sequence of one-hot observations (in particular
the 100 sampled ones) each appended state vector has non-negative
components summing to 1 — the elementwise product of the transitioned
prior and the emission-weighted observation always has a strictly
positive sum, so the normalisation is well defined at every step. -/
theorem track_states_are_distributions (os : List (Fin 3)) (x : Fin 3 → ℚ)
    (hx : x ∈ forwardTrack uniformPrior os) :
    (∀ i, 0 ≤ x i) ∧ ∑ i, x i = 1 :=
  forwardTrack_invariant os uniformPrior
    (fun i => by norm_num [uniformPrior])
    (by norm_num [uniformPrior, Fin.sum_univ_three]) x hx

theorem track_states_are_distributions_witness :
    forwardStep uniformPrior (oneHot 2) ∈ forwardTrack uniformPrior [2] ∧
    ((∀ i, 0 ≤ forwardStep uniformPrior (oneHot 2) i) ∧
      ∑ i, forwardStep uniformPrior (oneHot 2) i = 1) :=
  ⟨by simp [forwardTrack],
    track_states_are_distributions [2] (forwardStep uniformPrior (oneHot 2))
      (by simp [forwardTrack])⟩

end NaiveClassification
